import Mathlib

/-!
Shallow embedding of the FinAML valuation module
(`finaml_types.py` and `finaml_operations.py`).

Python numbers are modelled as exact rationals (`ℚ`).  Python's `/`
raises `ZeroDivisionError` on a zero denominator, so fallible
computations return `Option ℚ`, with `none` standing for a raised
`ZeroDivisionError`.  Python's `0 ** 0 == 1` agrees with `ℚ`'s
`0 ^ 0 = 1`, so `**` with a natural exponent is `HPow.hPow`.
-/

/-- The closed instrument variant set of `finaml_types.py`:
`Stock(ticker_symbol, current_price)`,
`Bond(ticker_symbol, face_value, coupon_rate)`,
`Option(option_type, underlying_asset, strike_price, expiration_date)`. -/
inductive FinancialInstrument where
  | Stock (ticker_symbol : String) (current_price : ℚ)
  | Bond (ticker_symbol : String) (face_value : ℚ) (coupon_rate : ℚ)
  | Option (option_type : String) (underlying_asset : String)
      (strike_price : ℚ) (expiration_date : String)
  deriving DecidableEq, Repr

/-- Python division: `a / b` raises `ZeroDivisionError` (modelled `none`)
when `b = 0`, otherwise returns the exact quotient. -/
def pyDiv (a b : ℚ) : Option ℚ :=
  if b = 0 then none else some (a / b)

/-- `present_value` of `finaml_operations.py`: dispatches on the
instrument variant via the `isinstance` chain. -/
def present_value : FinancialInstrument → Option ℚ
  | .Stock _ current_price => some current_price
  | .Bond _ face_value coupon_rate => pyDiv face_value (1 + coupon_rate)
  | .Option _ _ _ _ => some 0

/-- `future_value` of `finaml_operations.py`.  The time period is the
non-negative integer count of compounding periods.  No division occurs,
so the function is total. -/
def future_value : FinancialInstrument → ℕ → ℚ
  | .Stock _ current_price, time_period =>
      current_price * (1 + 0.05) ^ time_period
  | .Bond _ face_value coupon_rate, time_period =>
      face_value * (1 + coupon_rate) ^ time_period
  | .Option _ _ _ _, _ => 0

/-- `simulate_portfolio` of `finaml_operations.py`:
`sum(present_value(inst) for inst in portfolio)`, a left fold starting
from `0`; an exception in any `present_value` call propagates. -/
def simulate_portfolio (portfolio : List FinancialInstrument) : Option ℚ :=
  portfolio.foldlM (fun acc inst => (present_value inst).map (fun v => acc + v)) 0

/-- The body of `calculate_npv`, carrying the `enumerate` index `i`:
`sum(cash / (1 + discount_rate) ** i for i, cash in enumerate(cash_flow))`. -/
def npvFrom (discount_rate : ℚ) : ℕ → List ℚ → Option ℚ
  | _, [] => some 0
  | i, cash :: rest => do
      let t ← pyDiv cash ((1 + discount_rate) ^ i)
      let s ← npvFrom discount_rate (i + 1) rest
      pure (t + s)

/-- `calculate_npv` of `finaml_operations.py`. -/
def calculate_npv (cash_flow : List ℚ) (discount_rate : ℚ) : Option ℚ :=
  npvFrom discount_rate 0 cash_flow

/-- Python `dict` assignment `d[k] = v`: if the key is present its value
is updated in place (the key keeps its original position), otherwise the
pair is appended at the end. -/
def dictInsert (d : List (ℚ × ℚ)) (k v : ℚ) : List (ℚ × ℚ) :=
  if d.any (fun p => decide (p.1 = k)) then
    d.map (fun p => if p.1 = k then (k, v) else p)
  else d ++ [(k, v)]

/-- `sensitivity_analysis` of `finaml_operations.py`:
`{rate: calculate_npv(cash_flow, rate) for rate in discount_rate_range}`,
a dict comprehension evaluated left to right; an exception in any
`calculate_npv` call propagates. -/
def sensitivity_analysis (cash_flow : List ℚ) (discount_rate_range : List ℚ) :
    Option (List (ℚ × ℚ)) :=
  discount_rate_range.foldlM
    (fun d rate => (calculate_npv cash_flow rate).map (fun v => dictInsert d rate v)) []

/-- Spec-side sequence of present values of a portfolio, propagating a
raised exception from any element: used to state that
`simulate_portfolio` returns the sum of `present_value` over every
element. -/
def presentValues : List FinancialInstrument → Option (List ℚ)
  | [] => some []
  | inst :: rest => do
      let v ← present_value inst
      let vs ← presentValues rest
      pure (v :: vs)

/-- First occurrences of a rate sequence, skipping rates already seen:
the insertion order of keys of a Python dict built from the sequence. -/
def dedupFirst (seen : List ℚ) : List ℚ → List ℚ
  | [] => []
  | r :: rest => if r ∈ seen then dedupFirst seen rest else r :: dedupFirst (r :: seen) rest

/-- Open-world instrument type for the exhaustiveness question: the
three classes of `finaml_types.py` plus a hypothetical fourth variant
subclassing `FinancialInstrument` with no `isinstance` branch. -/
inductive ExtInstrument where
  | Stock (ticker_symbol : String) (current_price : ℚ)
  | Bond (ticker_symbol : String) (face_value : ℚ) (coupon_rate : ℚ)
  | Option (option_type : String) (underlying_asset : String)
      (strike_price : ℚ) (expiration_date : String)
  | Other (class_name : String)
  deriving DecidableEq, Repr

/-- Observable result of a Python call: a numeric return value, the
implicit `None` returned when an `if`/`elif` chain has no matching
branch, or a raised `ZeroDivisionError`. -/
inductive PyRet where
  | num (q : ℚ)
  | retNone
  | zeroDivError
  deriving DecidableEq, Repr

/-- `present_value` run on the open-world instrument type: the
`isinstance` chain of `finaml_operations.py` has no `else`, so a fourth
variant falls through and the function returns Python `None`. -/
def present_value_ext : ExtInstrument → PyRet
  | .Stock _ current_price => .num current_price
  | .Bond _ face_value coupon_rate =>
      if 1 + coupon_rate = 0 then .zeroDivError else .num (face_value / (1 + coupon_rate))
  | .Option _ _ _ _ => .num 0
  | .Other _ => .retNone

/-- `future_value` run on the open-world instrument type: same
fall-through to Python `None` for a fourth variant. -/
def future_value_ext : ExtInstrument → ℕ → PyRet
  | .Stock _ current_price, time_period => .num (current_price * (1 + 0.05) ^ time_period)
  | .Bond _ face_value coupon_rate, time_period =>
      .num (face_value * (1 + coupon_rate) ^ time_period)
  | .Option _ _ _ _, _ => .num 0
  | .Other _, _ => .retNone

/-- The three closed variants seen inside the open-world type. -/
def embedInstrument : FinancialInstrument → ExtInstrument
  | .Stock t p => .Stock t p
  | .Bond t f c => .Bond t f c
  | .Option o u s e => .Option o u s e

lemma one_add_ne_zero (r : ℚ) (h : r ≠ -1) : (1 : ℚ) + r ≠ 0 := by
  intro h0
  exact h (by linarith)

lemma npvFrom_eq (r : ℚ) (h : (1 : ℚ) + r ≠ 0) (cf : List ℚ) :
    ∀ i : ℕ, npvFrom r i cf =
      some (∑ j ∈ Finset.range cf.length, cf.getD j 0 / (1 + r) ^ (i + j)) := by
  induction cf with
  | nil =>
      intro i
      simp [npvFrom]
  | cons c rest ih =>
      intro i
      have hp : ((1 : ℚ) + r) ^ i ≠ 0 := pow_ne_zero _ h
      simp only [npvFrom, pyDiv, if_neg hp, ih (i + 1), Option.bind_eq_bind,
        Option.some_bind, Option.some.injEq, List.length_cons]
      rw [Finset.sum_range_succ']
      simp only [List.getD_cons_succ, List.getD_cons_zero, Nat.add_zero, Nat.add_succ,
        Nat.succ_add, Option.pure_def, Option.some.injEq]
      ring

/-- C1: for every instrument, `present_value` dispatches on the variant:
every Stock returns its current price unchanged; every Bond returns
face_value / (1 + coupon_rate) (the quotient exists exactly when
coupon_rate ≠ -1; at coupon_rate = -1 Python raises ZeroDivisionError);
every Option returns 0. -/
theorem present_value_dispatch (t tb o u e : String) (p f c sp : ℚ) :
    present_value (.Stock t p) = some p ∧
    (c ≠ -1 → present_value (.Bond tb f c) = some (f / (1 + c))) ∧
    present_value (.Option o u sp e) = some 0 := by
  refine ⟨rfl, fun hc => ?_, rfl⟩
  simp [present_value, pyDiv, one_add_ne_zero c hc]

/-- Witness for C1 at the example driver's Bond("XYZ", 1000.0, 0.05). -/
theorem present_value_dispatch_witness :
    present_value (.Bond "XYZ" 1000 (5 / 100)) = some (1000 / (1 + 5 / 100)) :=
  (present_value_dispatch "AAPL" "XYZ" "Call" "AAPL" "2023-12-31"
    150 1000 (5 / 100) 160).2.1 (by norm_num)

/-- C2: for every cash-flow sequence and every discount rate other than
the degenerate -1 (where the claimed quotients are undefined and the
code raises), `calculate_npv` returns the sum over i of
cash_flow[i] / (1 + discount_rate)^i; for the empty sequence it returns
0 at every rate. -/
theorem calculate_npv_closed_form :
    (∀ (cf : List ℚ) (r : ℚ), r ≠ -1 →
      calculate_npv cf r =
        some (∑ i ∈ Finset.range cf.length, cf.getD i 0 / (1 + r) ^ i)) ∧
    (∀ r : ℚ, calculate_npv [] r = some 0) := by
  constructor
  · intro cf r hr
    simpa [calculate_npv] using npvFrom_eq r (one_add_ne_zero r hr) cf 0
  · intro r
    rfl

/-- Witness for C2 on the cash flow [10, 20] at rate 1. -/
theorem calculate_npv_closed_form_witness :
    calculate_npv [10, 20] 1 =
      some (∑ i ∈ Finset.range (List.length [(10 : ℚ), 20]),
        [(10 : ℚ), 20].getD i 0 / (1 + 1) ^ i) :=
  calculate_npv_closed_form.1 [10, 20] 1 (by norm_num)

/-- C3: for every non-negative integer period count, `future_value`
returns current_price * 1.05^periods for a Stock,
face_value * (1 + coupon_rate)^periods for a Bond, and 0 for an
Option. -/
theorem future_value_formula (t tb o u e : String) (p f c sp : ℚ) (n : ℕ) :
    future_value (.Stock t p) n = p * (1.05 : ℚ) ^ n ∧
    future_value (.Bond tb f c) n = f * (1 + c) ^ n ∧
    future_value (.Option o u sp e) n = 0 := by
  refine ⟨?_, rfl, rfl⟩
  norm_num [future_value]

/-- C7: for every cash-flow sequence and every discount rate other than
-1, `calculate_npv` is total: every denominator (1 + rate)^i is nonzero,
so the division-by-zero branch is unreachable and the call returns a
value. -/
theorem calculate_npv_total (cf : List ℚ) (r : ℚ) (h : r ≠ -1) :
    (∀ i : ℕ, ((1 : ℚ) + r) ^ i ≠ 0) ∧ ∃ v, calculate_npv cf r = some v :=
  ⟨fun i => pow_ne_zero i (one_add_ne_zero r h),
    ⟨_, npvFrom_eq r (one_add_ne_zero r h) cf 0⟩⟩

/-- Witness for C7 on the example driver's cash flow at rate 0.1. -/
theorem calculate_npv_total_witness :
    (∀ i : ℕ, ((1 : ℚ) + 1 / 10) ^ i ≠ 0) ∧
      ∃ v, calculate_npv [-100, 20, 30, 40, 50] (1 / 10) = some v :=
  calculate_npv_total [-100, 20, 30, 40, 50] (1 / 10) (by norm_num)

/-- C8: `future_value` with zero periods is the identity on the base
value: a Stock returns its current price and a Bond its face value. -/
theorem future_value_zero_identity (t tb : String) (p f c : ℚ) :
    future_value (.Stock t p) 0 = p ∧ future_value (.Bond tb f c) 0 = f := by
  constructor <;> simp [future_value]

/-- C9: for every non-negative discount rate, `calculate_npv` on a
one-element cash flow returns that element: only the i = 0 term, with
discount factor (1 + rate)^0 = 1, contributes. -/
theorem calculate_npv_singleton (c r : ℚ) (_h : 0 ≤ r) :
    calculate_npv [c] r = some c := by
  simp [calculate_npv, npvFrom, pyDiv]

/-- Witness for C9 on the cash flow [42] at rate 0.1. -/
theorem calculate_npv_singleton_witness :
    calculate_npv [42] (1 / 10) = some 42 :=
  calculate_npv_singleton 42 (1 / 10) (by norm_num)

lemma npv_two_neg_one (a b : ℚ) (rest : List ℚ) :
    calculate_npv (a :: b :: rest) (-1) = none := by
  norm_num [calculate_npv, npvFrom, pyDiv]

lemma sens_fold_none (cf : List ℚ) (hcf : calculate_npv cf (-1) = none) :
    ∀ (range : List ℚ) (d : List (ℚ × ℚ)), (-1 : ℚ) ∈ range →
      List.foldlM
        (fun d rate => (calculate_npv cf rate).map (fun v => dictInsert d rate v)) d
        range = none := by
  intro range
  induction range with
  | nil =>
      intro d hmem
      cases hmem
  | cons r rest ih =>
      intro d hmem
      rcases List.mem_cons.mp hmem with heq | hmem'
      · rw [← heq]
        simp [List.foldlM, hcf]
      · cases hstep : calculate_npv cf r with
        | none => simp [List.foldlM, hstep]
        | some v =>
            simp only [List.foldlM, hstep, Option.map_some, Option.some_bind]
            exact ih _ hmem'

/-- C10: at discount rate -1, `calculate_npv` raises ZeroDivisionError
(modelled `none`) for every cash flow of length at least 2, because the
i = 1 term divides by (1 + (-1))^1 = 0; for the empty cash flow it
returns 0 and for a singleton it returns the single element, because the
only exponent is 0 and 0^0 evaluates to 1.  The failure propagates out
of `sensitivity_analysis` whenever -1 occurs in the rate range and the
cash flow has length at least 2. -/
theorem npv_rate_neg_one :
    (∀ (a b : ℚ) (rest : List ℚ), calculate_npv (a :: b :: rest) (-1) = none) ∧
    calculate_npv ([] : List ℚ) (-1) = some 0 ∧
    (∀ c : ℚ, calculate_npv [c] (-1) = some c) ∧
    (∀ (a b : ℚ) (rest range : List ℚ), (-1 : ℚ) ∈ range →
      sensitivity_analysis (a :: b :: rest) range = none) := by
  refine ⟨npv_two_neg_one, rfl, ?_, ?_⟩
  · intro c
    norm_num [calculate_npv, npvFrom, pyDiv]
  · intro a b rest range hmem
    exact sens_fold_none _ (npv_two_neg_one a b rest) range [] hmem

/-- Witness for C10: the cash flow [1, 1] at the rate range [-1]. -/
theorem npv_rate_neg_one_witness :
    sensitivity_analysis [1, 1] [-1] = none :=
  npv_rate_neg_one.2.2.2 1 1 [] [-1] (by simp)

lemma foldlM_pv (l : List FinancialInstrument) :
    ∀ acc : ℚ,
      List.foldlM (fun a inst => (present_value inst).map (fun v => a + v)) acc l =
        (presentValues l).map (fun vs => acc + vs.sum) := by
  induction l with
  | nil =>
      intro acc
      simp [presentValues]
  | cons i rest ih =>
      intro acc
      cases hpv : present_value i with
      | none => simp [List.foldlM, presentValues, hpv]
      | some v =>
          simp only [List.foldlM, presentValues, hpv, Option.map_some, Option.map_some', Option.bind_eq_bind,
            Option.some_bind]
          rw [ih (acc + v)]
          cases hrest : presentValues rest with
          | none => rfl
          | some vs =>
              simp only [Option.map_some, Option.map_some', Option.bind_eq_bind, Option.some_bind,
                Option.pure_def, Option.some.injEq, List.sum_cons]
              ring

/-- C4: `simulate_portfolio` returns the sum of `present_value` over
every element (addition on exact rationals, so the left-to-right
insertion order of the Python sum yields the same value); the empty
sequence gives 0 and a one-element sequence gives exactly the present
value of its element. -/
theorem simulate_portfolio_sum :
    (∀ l : List FinancialInstrument,
      simulate_portfolio l = (presentValues l).map (fun vs => vs.sum)) ∧
    simulate_portfolio [] = some 0 ∧
    (∀ s : FinancialInstrument, simulate_portfolio [s] = present_value s) := by
  have key : ∀ l, simulate_portfolio l = (presentValues l).map (fun vs => vs.sum) := by
    intro l
    rw [simulate_portfolio, foldlM_pv l 0]
    cases presentValues l with
    | none => rfl
    | some vs => simp
  refine ⟨key, rfl, ?_⟩
  intro s
  rw [key [s]]
  cases hpv : present_value s with
  | none => simp [presentValues, hpv]
  | some v => simp [presentValues, hpv]

lemma dictInsert_cond (d : List (ℚ × ℚ)) (k : ℚ) :
    d.any (fun p => decide (p.1 = k)) = true ↔ k ∈ d.map Prod.fst := by
  rw [List.any_eq_true]
  constructor
  · rintro ⟨p, hp, hdec⟩
    exact List.mem_map.mpr ⟨p, hp, of_decide_eq_true hdec⟩
  · intro hk
    obtain ⟨p, hp, hpk⟩ := List.mem_map.mp hk
    exact ⟨p, hp, decide_eq_true hpk⟩

lemma dictInsert_keys (d : List (ℚ × ℚ)) (k v : ℚ) :
    (dictInsert d k v).map Prod.fst =
      if k ∈ d.map Prod.fst then d.map Prod.fst else d.map Prod.fst ++ [k] := by
  by_cases hk : k ∈ d.map Prod.fst
  · rw [if_pos hk, dictInsert, if_pos ((dictInsert_cond d k).mpr hk), List.map_map]
    refine List.map_congr_left ?_
    intro p _
    by_cases hp : p.1 = k
    · simp [Function.comp, hp]
    · simp [Function.comp, hp]
  · rw [if_neg hk, dictInsert, if_neg (fun hc => hk ((dictInsert_cond d k).mp hc)),
      List.map_append]
    rfl

lemma dictInsert_mem (d : List (ℚ × ℚ)) (k v : ℚ) (p : ℚ × ℚ)
    (hp : p ∈ dictInsert d k v) : p = (k, v) ∨ p ∈ d := by
  rw [dictInsert] at hp
  by_cases hc : d.any (fun p => decide (p.1 = k)) = true
  · rw [if_pos hc] at hp
    obtain ⟨q, hq, hqp⟩ := List.mem_map.mp hp
    by_cases hq1 : q.1 = k
    · rw [if_pos hq1] at hqp
      exact Or.inl hqp.symm
    · rw [if_neg hq1] at hqp
      exact Or.inr (hqp ▸ hq)
  · rw [if_neg hc] at hp
    rcases List.mem_append.mp hp with h | h
    · exact Or.inr h
    · exact Or.inl (List.mem_singleton.mp h)

lemma dedupFirst_congr (s₁ s₂ : List ℚ) (hs : ∀ x, x ∈ s₁ ↔ x ∈ s₂) :
    ∀ l : List ℚ, dedupFirst s₁ l = dedupFirst s₂ l
  | [] => rfl
  | r :: rest => by
      by_cases hr : r ∈ s₁
      · rw [dedupFirst, dedupFirst, if_pos hr, if_pos ((hs r).mp hr)]
        exact dedupFirst_congr s₁ s₂ hs rest
      · rw [dedupFirst, dedupFirst, if_neg hr, if_neg (fun hh => hr ((hs r).mpr hh))]
        refine congrArg (r :: ·) ?_
        refine dedupFirst_congr (r :: s₁) (r :: s₂) ?_ rest
        intro x
        simp [hs x]

lemma mem_dedupFirst (x : ℚ) :
    ∀ (l seen : List ℚ), x ∈ dedupFirst seen l ↔ x ∈ l ∧ x ∉ seen
  | [], seen => by simp [dedupFirst]
  | r :: rest, seen => by
      by_cases hr : r ∈ seen
      · rw [dedupFirst, if_pos hr, mem_dedupFirst x rest seen]
        constructor
        · rintro ⟨h1, h2⟩
          exact ⟨List.mem_cons_of_mem r h1, h2⟩
        · rintro ⟨h1, h2⟩
          rcases List.mem_cons.mp h1 with heq | hmem
          · exact absurd (heq ▸ hr) h2
          · exact ⟨hmem, h2⟩
      · rw [dedupFirst, if_neg hr]
        rw [List.mem_cons, mem_dedupFirst x rest (r :: seen)]
        constructor
        · rintro (heq | ⟨h1, h2⟩)
          · exact ⟨heq ▸ List.mem_cons_self r rest, heq ▸ hr⟩
          · exact ⟨List.mem_cons_of_mem r h1, fun hh => h2 (List.mem_cons_of_mem r hh)⟩
        · rintro ⟨h1, h2⟩
          rcases List.mem_cons.mp h1 with heq | hmem
          · exact Or.inl heq
          · by_cases hxr : x = r
            · exact Or.inl hxr
            · exact Or.inr ⟨hmem, fun hh => by
                rcases List.mem_cons.mp hh with h3 | h3
                · exact hxr h3
                · exact h2 h3⟩

lemma nodup_dedupFirst : ∀ (l seen : List ℚ), (dedupFirst seen l).Nodup
  | [], _ => List.nodup_nil
  | r :: rest, seen => by
      by_cases hr : r ∈ seen
      · rw [dedupFirst, if_pos hr]
        exact nodup_dedupFirst rest seen
      · rw [dedupFirst, if_neg hr]
        refine List.nodup_cons.mpr ⟨?_, nodup_dedupFirst rest (r :: seen)⟩
        intro hmem
        exact ((mem_dedupFirst r rest (r :: seen)).mp hmem).2 (List.mem_cons_self r seen)

lemma sens_fold_some (cf : List ℚ) :
    ∀ (range : List ℚ) (d₀ : List (ℚ × ℚ)),
      (∀ r ∈ range, (calculate_npv cf r).isSome = true) →
      ∃ d, List.foldlM
          (fun d rate => (calculate_npv cf rate).map (fun v => dictInsert d rate v)) d₀ range
          = some d ∧
        d.map Prod.fst = d₀.map Prod.fst ++ dedupFirst (d₀.map Prod.fst) range ∧
        (∀ p ∈ d, p ∈ d₀ ∨ calculate_npv cf p.1 = some p.2) := by
  intro range
  induction range with
  | nil =>
      intro d₀ _
      exact ⟨d₀, rfl, by simp [dedupFirst], fun p hp => Or.inl hp⟩
  | cons r rest ih =>
      intro d₀ hall
      obtain ⟨v, hv⟩ := Option.isSome_iff_exists.mp (hall r (List.mem_cons_self r rest))
      obtain ⟨d, hd, hkeys, hvals⟩ :=
        ih (dictInsert d₀ r v) (fun r' hr' => hall r' (List.mem_cons_of_mem r hr'))
      refine ⟨d, ?_, ?_, ?_⟩
      · simp only [List.foldlM, hv, Option.map_some, Option.map_some', Option.bind_eq_bind,
          Option.some_bind]
        exact hd
      · rw [hkeys, dictInsert_keys]
        by_cases hk : r ∈ d₀.map Prod.fst
        · rw [if_pos hk, dedupFirst, if_pos hk]
        · rw [if_neg hk, dedupFirst, if_neg hk,
            dedupFirst_congr (d₀.map Prod.fst ++ [r]) (r :: d₀.map Prod.fst)
              (fun x => by simp [or_comm]) rest,
            List.append_assoc, List.singleton_append]
      · intro p hp
        rcases hvals p hp with hin | hnpv
        · rcases dictInsert_mem d₀ r v p hin with heq | hin₀
          · refine Or.inr ?_
            rw [heq]
            exact hv
          · exact Or.inl hin₀
        · exact Or.inr hnpv

/-- C5: when every rate in the range yields a defined NPV (which holds
in particular whenever -1 does not occur in the range), the dict built
by `sensitivity_analysis` has exactly one entry per distinct rate of the
input sequence, every entry's value equals `calculate_npv` of the cash
flow at that rate (so a duplicate rate's last write rewrites the same
value), and the keys iterate in insertion order of the first occurrences
in `discount_rate_range`. -/
theorem sensitivity_analysis_mapping (cf range : List ℚ)
    (h : ∀ r ∈ range, (calculate_npv cf r).isSome = true) :
    ∃ d, sensitivity_analysis cf range = some d ∧
      d.map Prod.fst = dedupFirst [] range ∧
      (∀ r, r ∈ d.map Prod.fst ↔ r ∈ range) ∧
      (d.map Prod.fst).Nodup ∧
      (∀ p ∈ d, calculate_npv cf p.1 = some p.2) := by
  obtain ⟨d, hd, hkeys, hvals⟩ := sens_fold_some cf range [] h
  have hkeys' : d.map Prod.fst = dedupFirst [] range := by simpa using hkeys
  refine ⟨d, hd, hkeys', ?_, ?_, ?_⟩
  · intro r
    rw [hkeys', mem_dedupFirst]
    simp
  · rw [hkeys']
    exact nodup_dedupFirst range []
  · intro p hp
    rcases hvals p hp with h0 | h1
    · exact absurd h0 (List.not_mem_nil p)
    · exact h1

/-- Witness for C5: cash flow [1] against the rate range [0, 0, 1/10],
whose duplicate first rate collapses to a single entry. -/
theorem sensitivity_analysis_mapping_witness :
    ∃ d, sensitivity_analysis [1] [0, 0, 1 / 10] = some d ∧
      d.map Prod.fst = dedupFirst [] [0, 0, 1 / 10] ∧
      (∀ r, r ∈ d.map Prod.fst ↔ r ∈ ([0, 0, 1 / 10] : List ℚ)) ∧
      (d.map Prod.fst).Nodup ∧
      (∀ p ∈ d, calculate_npv [1] p.1 = some p.2) :=
  sensitivity_analysis_mapping [1] [0, 0, 1 / 10] (by decide)

lemma present_value_ext_agrees (inst : FinancialInstrument) :
    present_value_ext (embedInstrument inst) =
      (match present_value inst with
        | some q => PyRet.num q
        | none => PyRet.zeroDivError) := by
  cases inst with
  | Stock t p => rfl
  | Bond t f c =>
      by_cases hc : (1 : ℚ) + c = 0 <;>
        simp [present_value, pyDiv, present_value_ext, embedInstrument, hc]
  | Option o u s e => rfl

/-- C6 counterexample: applied to a fourth variant with no branch, the
isinstance chains of both functions fall off the end and silently return
Python None (modelled `PyRet.retNone`) — the calls do not fail with any
UnsupportedVariant condition, contrary to the claim. -/
theorem unsupported_variant_counterexample :
    present_value_ext (.Other "Swap") = PyRet.retNone ∧
    future_value_ext (.Other "Swap") 1 = PyRet.retNone :=
  ⟨rfl, rfl⟩

/-- C6 amended: `present_value` and `future_value` applied to an
instrument that is none of the three variants silently return Python
None for every such variant and every period count; no
UnsupportedVariant condition exists in the code and exhaustiveness is
not enforced. -/
theorem unsupported_variant_silent_none (class_name : String) (n : ℕ) :
    present_value_ext (.Other class_name) = PyRet.retNone ∧
    future_value_ext (.Other class_name) n = PyRet.retNone :=
  ⟨rfl, rfl⟩
